import Mathlib

/-!
Shallow embedding of `examples/whitehat_crypto400/solve.py`.

The script drives an external symbolic-execution engine (angr) against the
fixed binary `whitehat_crypto400`.  The script's own logic — the hook it
installs, the exploration plan, the printable-byte constraint loop, the
capped solver enumeration, the cartesian product of candidate byte pairs and
the brute-force subprocess loop — is embedded below.  The external engine
and the target binary are abstracted as oracles (`Engine`, the `next`
successor map of `explore`), with one concrete instance modelled from the
spec where the claim is about the fixed binary itself.
-/

namespace Whitehat400

/-- Byte strings of the Python 2 script are modelled as lists of characters. -/
abbrev Str := List Char

/-! ## Hooks (solve.py lines 24-38) -/

/-- A symbolic execution state as far as the script touches it: a register
file indexed by register name, a byte memory, and a list of path constraints. -/
structure SimState where
  regs : String → Nat
  mem : Nat → Nat
  constraints : List Prop

/-- Embeds `hook_length` (solve.py lines 35-36): `state.regs.rax = 8`.
The only write is to register `rax`. -/
def hook_length (s : SimState) : SimState :=
  { s with regs := fun r => if r = "rax" then 8 else s.regs r }

/-- A hook installed on the project: either a built-in simuvex procedure
summary, identified by library and symbol name, or a custom Python function
with a skip length. -/
inductive Hook where
  | simProc (lib symbol : String)
  | custom (f : SimState → SimState) (length : Nat)

/-- The full hook table installed by `main` (solve.py lines 24-38), in
program order: address paired with the installed behaviour. -/
def hooks : List (Nat × Hook) :=
  [(0x4018B0, Hook.simProc "libc.so.6" "__libc_start_main"),
   (0x422690, Hook.simProc "libc.so.6" "memcpy"),
   (0x408F10, Hook.simProc "libc.so.6" "puts"),
   (0x401438, Hook.simProc "stubs" "ReturnUnconstrained"),
   (0x40168e, Hook.custom hook_length 5),
   (0x4016BE, Hook.custom hook_length 5)]

/-! ## Exploration plan (solve.py lines 53-56) -/

/-- One `pg.explore(find=..., avoid=[...])` step of the script. -/
structure ExploreStepSpec where
  find : Nat
  avoid : List Nat
deriving DecidableEq

/-- The four successive explore steps of solve.py lines 53-56, in program
order.  The first step passes no avoid list. -/
def explorationPlan : List ExploreStepSpec :=
  [⟨0x4016A3, []⟩,
   ⟨0x4016B7, [0x4017D6, 0x401699, 0x40167D]⟩,
   ⟨0x4017CF, [0x4017D6, 0x401699, 0x40167D]⟩,
   ⟨0x401825, [0x401811]⟩]

/-- An execution path: its current address and the list of previously
visited addresses, most recent first. -/
abbrev Path := Nat × List Nat

/-- All addresses a path has reached, current address included. -/
def pathVisited (p : Path) : List Nat := p.1 :: p.2

/-- Modelled from the spec: one engine step of a single path.  `next` is the
binary's successor relation, opaque to the script.  Successor paths that
land on an avoid address are put in the avoided stash, i.e. dropped from
the surviving stashes (spec §6: "iterative find/avoid path exploration";
glossary: discarding states that reach specified addresses). -/
def stepPath (next : Nat → List Nat) (avoid : List Nat) (p : Path) : List Path :=
  ((next p.1).map (fun a => (a, p.1 :: p.2))).filter (fun q => !(decide (q.1 ∈ avoid)))

/-- Modelled from the spec: `pg.explore(find=f, avoid=l)` (spec §2 step 4),
fuel-bounded.  Each round, paths sitting at the find address are moved to
the found stash and exploration stops as soon as that stash is non-empty;
otherwise every active path is stepped, discarding successors that reach an
avoid address.  Returns (found stash, remaining active stash). -/
def explore (next : Nat → List Nat) (find : Nat) (avoid : List Nat) :
    Nat → List Path → List Path × List Path
  | 0, active => ([], active)
  | fuel + 1, active =>
    let found := active.filter (fun p => p.1 == find)
    if found.isEmpty then
      explore next find avoid fuel (active.flatMap (stepPath next avoid))
    else
      (found, active.filter (fun p => !(p.1 == find)))

/-! ## Stage-2 byte constraints (solve.py lines 64-66) -/

/-- Base address of the 8 passphrase bytes in memory. -/
def keyBase : Nat := 0x6C4B20

/-- The constraint loop of solve.py lines 64-66: for each `i < 8`, the byte
loaded from `keyBase + i` gets the two constraints `b >= 0x21` and
`b <= 0x7e`, recorded here as (address, lower bound, upper bound). -/
def stage2Constraints : List (Nat × Nat × Nat) :=
  (List.range 8).map (fun i => (keyBase + i, 0x21, 0x7e))

/-- A byte value satisfies the pair of constraints `b >= lo`, `b <= hi`
added by the loop. -/
def admits (lo hi b : Nat) : Bool := decide (lo ≤ b ∧ b ≤ hi)

/-- Follows the spec's words, not the source: the printable ASCII range,
codes 0x20 (space) through 0x7e inclusive.  Used to compare the spec's
"printable ASCII" description with the constraint the code actually adds. -/
def printableAscii (b : Nat) : Bool := decide (0x20 ≤ b ∧ b ≤ 0x7e)

/-! ## Solver enumeration (solve.py line 72) -/

/-- The external facilities the script calls into, abstracted: the
constraint solver's full solution list for a memory load of `width` bytes
at `addr` (after the stage-2 constraints), and the combined stdout+stderr
produced by running `./whitehat_crypto400` with one argument. -/
structure Engine where
  solutions : Nat → Nat → List Str
  run : Str → Str

/-- Embeds `s.se.any_n_str(s.memory.load(addr, width), n)`: at most the
first `n` solver solutions for the load. -/
def any_n_str (e : Engine) (addr width n : Nat) : List Str :=
  (e.solutions addr width).take n

/-- Embeds solve.py line 72: for `i in range(0, 8, 2)`, the capped solution
list for the 2-byte load at `keyBase + i`, cap 65536. -/
def possible_values (e : Engine) : List (List Str) :=
  (List.range' 0 4 2).map (fun i => any_n_str e (keyBase + i) 2 65536)

/-! ## Cartesian product and brute force (solve.py lines 75-81) -/

/-- `itertools.product(*ls)`: all ways of picking one element from each
list, leftmost factor varying slowest. -/
def listProduct : List (List α) → List (List α)
  | [] => [[]]
  | l :: ls => l.flatMap (fun x => (listProduct ls).map (fun t => x :: t))

/-- Embeds solve.py line 75: the tuple of all candidate guesses. -/
def possibilities (e : Engine) : List (List Str) :=
  listProduct (possible_values e)

/-- The success marker searched for in the subprocess output. -/
def flagMarker : Str := "FLAG IS".data

/-- The program spawned for each guess. -/
def targetProgram : Str := "./whitehat_crypto400".data

/-- Python 2 `str.isspace` characters, the separators of `str.split()`. -/
def pyIsSpace (c : Char) : Bool :=
  c == ' ' || c == '\t' || c == '\n' || c == '\r' || c == '\x0b' || c == '\x0c'

/-- Worker for `pySplit`: `acc` holds the current token reversed. -/
def pySplitAux : Str → Str → List Str
  | acc, [] => if acc.isEmpty then [] else [acc.reverse]
  | acc, c :: cs =>
    if pyIsSpace c then
      if acc.isEmpty then pySplitAux [] cs
      else acc.reverse :: pySplitAux [] cs
    else pySplitAux (c :: acc) cs

/-- Python 2 `stdout.split()`: split on runs of whitespace, dropping empty
tokens. -/
def pySplit (s : Str) : List Str := pySplitAux [] s

/-- Python 2 `needle in hay` on byte strings: substring containment. -/
def pyIn (needle hay : Str) : Bool := decide (needle <:+: hay)

/-- One `subprocess.Popen` call as the script makes it: program, argument
list after the program name, and whether stderr is redirected into stdout. -/
structure Spawn where
  prog : Str
  args : List Str
  stderrMerged : Bool
deriving DecidableEq

/-- One round of the brute-force loop: the candidate tuple tried, the
subprocess spawned for it, the combined output read back, and whether the
output contained the success marker. -/
structure Iteration where
  guess : List Str
  spawned : Spawn
  output : Str
  hit : Bool
deriving DecidableEq

/-- Embeds solve.py lines 79-80 for one guess: spawn
`./whitehat_crypto400 ''.join(guess)` with `stderr=STDOUT`, read the
combined output, and test `'FLAG IS' in stdout`. -/
def runIter (run : Str → Str) (g : List Str) : Iteration :=
  let joined := g.flatten
  let out := run joined
  { guess := g,
    spawned := { prog := targetProgram, args := [joined], stderrMerged := true },
    output := out,
    hit := pyIn flagMarker out }

/-- Embeds the brute-force loop of solve.py lines 78-81, returning the trace
of iterations actually performed together with the result: on a hit the
loop returns `filter(lambda s: ''.join(guess) in s, stdout.split())[0]`,
which raises IndexError (modelled `Except.error ()`) when no token of the
output contains the guess; falling off the loop returns `None`. -/
def bruteForce (run : Str → Str) : List (List Str) → List Iteration × Except Unit (Option Str)
  | [] => ([], Except.ok none)
  | g :: gs =>
    let it := runIter run g
    if it.hit then
      match (pySplit it.output).filter (fun t => pyIn it.guess.flatten t) with
      | [] => ([it], Except.error ())
      | t :: _ => ([it], Except.ok (some t))
    else
      let rest := bruteForce run gs
      (it :: rest.1, rest.2)

/-- Embeds the tail of `main` (solve.py lines 72-81): enumerate the capped
byte-pair solutions, form their cartesian product, and brute-force it
against the binary.  Returns the trace of subprocess rounds and the
script's result. -/
def main (e : Engine) : List Iteration × Except Unit (Option Str) :=
  bruteForce e.run (possibilities e)

/-- Modelled from the spec: the fixed target binary `whitehat_crypto400`
and the solver's enumeration results, neither of which is under src/.  Per
spec §6 and §8 the binary, given the correct 8-byte passphrase, prints a
line containing the marker `FLAG IS` and the flag token
`growfish_nytEaTBU`; the flag token contains the winning passphrase, taken
here to be its first 8 bytes `growfish`.  The solver, after stage 1 and the
stage-2 printable constraints, pins each of the four byte pairs to the
corresponding pair of the passphrase. -/
def whitehatEngine : Engine where
  solutions := fun addr width =>
    if width = 2 then
      if addr = keyBase then [['g', 'r']]
      else if addr = keyBase + 2 then [['o', 'w']]
      else if addr = keyBase + 4 then [['f', 'i']]
      else if addr = keyBase + 6 then [['s', 'h']]
      else []
    else []
  run := fun arg =>
    if arg = "growfish".data then "FLAG IS growfish_nytEaTBU".data
    else "WRONG KEY".data

/-- A second concrete engine instance, used to exercise the brute-force
loop on candidates the binary rejects: the solver leaves two values per
byte pair position and every invocation of the binary misses the marker. -/
def missEngine : Engine where
  solutions := fun _ _ => [['a', 'a'], ['b', 'b']]
  run := fun _ => "NO KEY".data

/-! ## Helper lemmas -/

theorem pySplitAux_no_space :
    ∀ (s acc : Str), (∀ c ∈ acc, pyIsSpace c = false) →
      ∀ t ∈ pySplitAux acc s, ∀ c ∈ t, pyIsSpace c = false := by
  intro s
  induction s with
  | nil =>
    intro acc hacc t ht c hc
    simp only [pySplitAux] at ht
    split at ht
    · simp at ht
    · simp only [List.mem_singleton] at ht
      subst ht
      exact hacc c (List.mem_reverse.mp hc)
  | cons d ds ih =>
    intro acc hacc t ht c hc
    simp only [pySplitAux] at ht
    by_cases hd : pyIsSpace d
    · rw [if_pos hd] at ht
      split at ht
      · exact ih [] (by simp) t ht c hc
      · rcases List.mem_cons.mp ht with h | h
        · subst h
          exact hacc c (List.mem_reverse.mp hc)
        · exact ih [] (by simp) t h c hc
    · rw [if_neg hd] at ht
      refine ih (d :: acc) ?_ t ht c hc
      intro x hx
      rcases List.mem_cons.mp hx with h | h
      · subst h; exact Bool.eq_false_iff.mpr hd
      · exact hacc x h

theorem pySplit_no_space (s : Str) : ∀ t ∈ pySplit s, ∀ c ∈ t, pyIsSpace c = false :=
  pySplitAux_no_space s [] (by simp)

theorem head?_filter_eq_find? (p : α → Bool) :
    ∀ l : List α, (l.filter p).head? = l.find? p := by
  intro l
  induction l with
  | nil => rfl
  | cons x xs ih =>
    by_cases hx : p x
    · simp [List.filter_cons, List.find?_cons, hx]
    · simp only [List.filter_cons, List.find?_cons]
      rw [if_neg (by simpa using hx)]
      cases hpx : p x
      · exact ih
      · exact absurd hpx (by simpa using hx)

theorem mem_listProduct {α : Type} :
    ∀ {L : List (List α)} {t : List α}, t ∈ listProduct L → List.Forall₂ (· ∈ ·) t L := by
  intro L
  induction L with
  | nil =>
    intro t ht
    simp only [listProduct, List.mem_singleton] at ht
    subst ht
    exact List.Forall₂.nil
  | cons l ls ih =>
    intro t ht
    simp only [listProduct, List.mem_flatMap, List.mem_map] at ht
    obtain ⟨x, hx, t', ht', rfl⟩ := ht
    exact List.Forall₂.cons hx (ih ht')

theorem length_listProduct {α : Type} :
    ∀ L : List (List α), (listProduct L).length = (L.map List.length).prod := by
  intro L
  induction L with
  | nil => rfl
  | cons l ls ih =>
    simp only [listProduct, List.length_flatMap, List.map_map, List.map_cons, List.prod_cons]
    have : (fun x : α => ((listProduct ls).map (fun t => x :: t)).length) =
        fun _ : α => (listProduct ls).length := by
      funext x; simp
    rw [Function.comp_def]
    simp only [List.length_map]
    rw [List.map_const', List.sum_replicate, smul_eq_mul, ih]

theorem forall₂_mem_exists {α β : Type} {R : α → β → Prop} :
    ∀ {t : List α} {L : List β}, List.Forall₂ R t L → ∀ x ∈ t, ∃ l ∈ L, R x l := by
  intro t L h
  induction h with
  | nil => intro x hx; simp at hx
  | @cons a b t' L' hab _ ih =>
    intro x hx
    rcases List.mem_cons.mp hx with h | h
    · exact ⟨b, List.mem_cons_self b L', h ▸ hab⟩
    · obtain ⟨l, hl, hr⟩ := ih x h
      exact ⟨l, List.mem_cons_of_mem b hl, hr⟩

theorem flatten_length_two {β : Type} :
    ∀ t : List (List β), (∀ x ∈ t, x.length = 2) → t.flatten.length = 2 * t.length := by
  intro t
  induction t with
  | nil => intro _; rfl
  | cons x t' ih =>
    intro h
    simp only [List.flatten_cons, List.length_append, List.length_cons]
    rw [ih (fun y hy => h y (List.mem_cons_of_mem x hy)), h x (List.mem_cons_self x t')]
    ring

theorem dropLast_cons_of_ne_nil {α : Type} (a : α) {l : List α} (h : l ≠ []) :
    (a :: l).dropLast = a :: l.dropLast := by
  cases l with
  | nil => exact absurd rfl h
  | cons b bs => rfl

theorem getLast?_cons_of_getLast? {α : Type} (a : α) {l : List α} {x : α}
    (h : l.getLast? = some x) : (a :: l).getLast? = some x := by
  cases l with
  | nil => simp at h
  | cons b bs => rw [List.getLast?_cons_cons]; exact h

theorem bf_mem_trace (run : Str → Str) :
    ∀ (gs : List (List Str)) (it : Iteration),
      it ∈ (bruteForce run gs).1 → ∃ g ∈ gs, it = runIter run g := by
  intro gs
  induction gs with
  | nil => intro it h; simp [bruteForce] at h
  | cons g gs ih =>
    intro it h
    simp only [bruteForce] at h
    split at h
    · split at h <;>
      · simp only [List.mem_singleton] at h
        exact ⟨g, List.mem_cons_self g gs, h⟩
    · rcases List.mem_cons.mp h with h1 | h1
      · exact ⟨g, List.mem_cons_self g gs, h1⟩
      · obtain ⟨g', hg', rfl⟩ := ih it h1
        exact ⟨g', List.mem_cons_of_mem g hg', rfl⟩

theorem bf_guesses (run : Str → Str) :
    ∀ gs : List (List Str),
      (bruteForce run gs).1.map Iteration.guess = gs.take (bruteForce run gs).1.length := by
  intro gs
  induction gs with
  | nil => rfl
  | cons g gs ih =>
    simp only [bruteForce]
    split
    · split <;> simp [runIter]
    · simp only [List.map_cons, List.length_cons, List.take_succ_cons, ih]
      exact congrArg (fun l => l :: _) rfl

theorem bf_dropLast_no_hit (run : Str → Str) :
    ∀ gs : List (List Str), ∀ it ∈ (bruteForce run gs).1.dropLast, it.hit = false := by
  intro gs
  induction gs with
  | nil => intro it h; simp [bruteForce] at h
  | cons g gs ih =>
    intro it h
    simp only [bruteForce] at h
    split at h
    · split at h <;> simp at h
    · rename_i hnh
      rcases hrest : (bruteForce run gs).1 with _ | ⟨b, bs⟩
      · rw [hrest] at h; simp at h
      · rw [hrest, dropLast_cons_of_ne_nil _ (by simp)] at h
        rcases List.mem_cons.mp h with h1 | h1
        · subst h1; exact Bool.not_eq_true _ ▸ Bool.eq_false_iff.mpr hnh
        · exact ih it (hrest ▸ h1)

theorem bf_last_hit (run : Str → Str) :
    ∀ gs : List (List Str), (bruteForce run gs).2 ≠ Except.ok none →
      ∃ it, (bruteForce run gs).1.getLast? = some it ∧ it.hit = true := by
  intro gs
  induction gs with
  | nil => intro h; exact absurd rfl h
  | cons g gs ih =>
    intro h
    by_cases hhit : (runIter run g).hit
    · simp only [bruteForce, hhit, if_true] at h ⊢
      split <;> exact ⟨runIter run g, rfl, hhit⟩
    · simp only [bruteForce, hhit, Bool.false_eq_true, if_false] at h ⊢
      obtain ⟨it, h1, h2⟩ := ih h
      exact ⟨it, getLast?_cons_of_getLast? _ h1, h2⟩

theorem bf_all_miss (run : Str → Str) :
    ∀ gs : List (List Str), (∀ g ∈ gs, pyIn flagMarker (run g.flatten) = false) →
      bruteForce run gs = (gs.map (runIter run), Except.ok none) := by
  intro gs
  induction gs with
  | nil => intro _; rfl
  | cons g gs ih =>
    intro h
    have hg : (runIter run g).hit = false := h g (List.mem_cons_self g gs)
    simp only [bruteForce, hg]
    rw [if_neg (by simp [hg])]
    rw [ih (fun g' hg' => h g' (List.mem_cons_of_mem g hg'))]
    rfl

theorem bf_success (run : Str → Str) :
    ∀ (gs : List (List Str)) (tr : List Iteration) (t : Str),
      bruteForce run gs = (tr, Except.ok (some t)) →
      ∃ it ∈ tr, it.hit = true ∧
        (pySplit it.output).find? (fun s => pyIn it.guess.flatten s) = some t := by
  intro gs
  induction gs with
  | nil =>
    intro tr t h
    exact Option.noConfusion (Except.ok.inj (congrArg Prod.snd h))
  | cons g gs ih =>
    intro tr t h
    simp only [bruteForce] at h
    split at h
    · rename_i hhit
      split at h
      · exact Except.noConfusion (congrArg Prod.snd h)
      · rename_i t' ts hfil
        have htr : tr = [runIter run g] := (congrArg Prod.fst h).symm
        have ht : t' = t := Option.some.inj (Except.ok.inj (congrArg Prod.snd h))
        refine ⟨runIter run g, by simp [htr], hhit, ?_⟩
        rw [← head?_filter_eq_find?, hfil]
        exact congrArg some ht
    · have htr : tr = runIter run g :: (bruteForce run gs).1 := (congrArg Prod.fst h).symm
      have hres : (bruteForce run gs).2 = Except.ok (some t) := congrArg Prod.snd h
      obtain ⟨it, h1, h2, h3⟩ := ih (bruteForce run gs).1 t (Prod.ext rfl hres)
      exact ⟨it, htr ▸ List.mem_cons_of_mem _ h1, h2, h3⟩

theorem explore_avoid_free (next : Nat → List Nat) (find : Nat) (avoid : List Nat) :
    ∀ (fuel : Nat) (active : List Path),
      (∀ p ∈ active, ∀ a ∈ pathVisited p, decide (a ∈ avoid) = false) →
      (∀ q ∈ (explore next find avoid fuel active).1, ∀ a ∈ pathVisited q,
        decide (a ∈ avoid) = false) ∧
      (∀ q ∈ (explore next find avoid fuel active).2, ∀ a ∈ pathVisited q,
        decide (a ∈ avoid) = false) := by
  intro fuel
  induction fuel with
  | zero =>
    intro active h
    exact ⟨by simp [explore], by simpa [explore] using h⟩
  | succ n ih =>
    intro active h
    simp only [explore]
    split
    · apply ih
      intro p hp a ha
      simp only [List.mem_flatMap] at hp
      obtain ⟨p0, hp0, hstep⟩ := hp
      simp only [stepPath, List.mem_filter, List.mem_map] at hstep
      obtain ⟨⟨a', ha', rfl⟩, hnot⟩ := hstep
      rcases List.mem_cons.mp ha with h1 | h1
      · subst h1; simpa using hnot
      · exact h p0 hp0 a h1
    · constructor <;> intro q hq <;> exact h q (List.mem_filter.mp hq).1

/-! ## Claim theorems -/

/-- C1: Invoking the solve routine (`main`) against the fixed target binary
`whitehat_crypto400` returns exactly the literal string
`growfish_nytEaTBU`, matching the assertion of `test` (solve.py lines
83-84).  The fixed binary and its solver solutions are modelled from the
spec by `whitehatEngine`. -/
theorem c1_main_returns_flag :
    (main whitehatEngine).2 = Except.ok (some "growfish_nytEaTBU".data) := rfl

/-- C2 (counterexample): the constraint the loop adds for the first key byte
(lower bound 0x21, upper bound 0x7e, solve.py line 66) rejects the byte
0x20, which is a printable ASCII character (space); hence the added
constraint does not admit exactly the printable ASCII range. -/
theorem c2_counterexample :
    (keyBase, 0x21, 0x7e) ∈ stage2Constraints ∧
    printableAscii 0x20 = true ∧ admits 0x21 0x7e 0x20 = false := by
  exact ⟨by decide, by decide, by decide⟩

/-- C2 (amended): after the found state is obtained, for every `i` in 0..7
the one-byte cell at `0x6C4B20 + i` receives the bounds 0x21 and 0x7e, so
every satisfying value of that byte is a printable ASCII character, and the
constraint admits exactly the printable ASCII range minus the space
character 0x20. -/
theorem c2_constraint_range :
    stage2Constraints.length = 8 ∧
    (∀ i (h : i < stage2Constraints.length),
      stage2Constraints.get ⟨i, h⟩ = (keyBase + i, 0x21, 0x7e)) ∧
    (∀ lo hi a b, (a, lo, hi) ∈ stage2Constraints →
      (admits lo hi b = true → printableAscii b = true) ∧
      (admits lo hi b = true ↔ printableAscii b = true ∧ b ≠ 0x20)) := by
  refine ⟨by decide, ?_, ?_⟩
  · intro i h
    have h8 : i < 8 := by simpa [stage2Constraints] using h
    interval_cases i <;> rfl
  · intro lo hi a b hmem
    simp only [stage2Constraints, List.mem_map, List.mem_range] at hmem
    obtain ⟨i, _, heq⟩ := hmem
    obtain ⟨-, h2⟩ := Prod.mk.injEq .. ▸ heq
    obtain ⟨hlo, hhi⟩ := Prod.mk.injEq .. ▸ h2
    subst hlo; subst hhi
    constructor
    · intro hb
      simp only [admits, decide_eq_true_eq] at hb
      simp only [printableAscii, decide_eq_true_eq]
      omega
    · simp only [admits, printableAscii, decide_eq_true_eq]
      omega

theorem c2_witness :
    stage2Constraints.get ⟨0, by decide⟩ = (keyBase + 0, 0x21, 0x7e) ∧
    (admits 0x21 0x7e 0x20 = true ↔ printableAscii 0x20 = true ∧ 0x20 ≠ 0x20) :=
  ⟨c2_constraint_range.2.1 0 (by decide),
   (c2_constraint_range.2.2 0x21 0x7e keyBase 0x20 (by decide)).2⟩

/-- C3: the candidate byte-pair enumeration produces exactly four sequences
of 2-byte strings, one per byte-pair offset 0, 2, 4, 6 from `0x6C4B20`, and
each sequence has at most 65536 entries by construction (the enumeration is
`take 65536` of the solver's solutions, solve.py line 72). -/
theorem c3_byte_pair_enumeration (e : Engine)
    (h2 : ∀ i ∈ [0, 2, 4, 6], ∀ s ∈ e.solutions (keyBase + i) 2, s.length = 2) :
    possible_values e =
      [any_n_str e (keyBase + 0) 2 65536, any_n_str e (keyBase + 2) 2 65536,
       any_n_str e (keyBase + 4) 2 65536, any_n_str e (keyBase + 6) 2 65536] ∧
    ∀ l ∈ possible_values e, l.length ≤ 65536 ∧ ∀ s ∈ l, s.length = 2 := by
  refine ⟨rfl, ?_⟩
  intro l hl
  have hrange : List.range' 0 4 2 = [0, 2, 4, 6] := rfl
  simp only [possible_values, hrange, List.mem_map] at hl
  obtain ⟨i, hi, rfl⟩ := hl
  refine ⟨?_, ?_⟩
  · simp [any_n_str, List.length_take]
  · intro s hs
    exact h2 i (by simpa using hi) s (List.mem_of_mem_take hs)

theorem c3_witness :
    possible_values whitehatEngine =
      [any_n_str whitehatEngine (keyBase + 0) 2 65536,
       any_n_str whitehatEngine (keyBase + 2) 2 65536,
       any_n_str whitehatEngine (keyBase + 4) 2 65536,
       any_n_str whitehatEngine (keyBase + 6) 2 65536] ∧
    ∀ l ∈ possible_values whitehatEngine, l.length ≤ 65536 ∧ ∀ s ∈ l, s.length = 2 :=
  c3_byte_pair_enumeration whitehatEngine (by decide)

/-- C9: `hook_length` is installed at the two strlen call sites `0x40168e`
and `0x4016BE` (with skip length 5, solve.py lines 37-38), and on every
state it writes 8 into register `rax` and changes nothing else: all other
registers, all memory and all constraints are unchanged. -/
theorem c9_hook_length_frame :
    (0x40168e, Hook.custom hook_length 5) ∈ hooks ∧
    (0x4016BE, Hook.custom hook_length 5) ∈ hooks ∧
    ∀ s : SimState,
      (hook_length s).regs "rax" = 8 ∧
      (∀ r, r ≠ "rax" → (hook_length s).regs r = s.regs r) ∧
      (hook_length s).mem = s.mem ∧
      (hook_length s).constraints = s.constraints := by
  refine ⟨by simp [hooks], by simp [hooks], ?_⟩
  intro s
  refine ⟨rfl, ?_, rfl, rfl⟩
  intro r hr
  simp [hook_length, hr]

theorem c9_witness :
    (hook_length ⟨fun _ => 0, fun _ => 0, []⟩).regs "rbx" =
      (⟨fun _ => 0, fun _ => 0, []⟩ : SimState).regs "rbx" :=
  (c9_hook_length_frame.2.2 ⟨fun _ => 0, fun _ => 0, []⟩).2.1 "rbx" (by decide)

/-- C4: the set of candidate full strings is the cartesian product of the
four candidate byte-pair sets, its size is the product of the four set
sizes, and — given each element of each set is 2 bytes — joining each tuple
yields an 8-byte literal (solve.py lines 75-77). -/
theorem c4_cartesian_product (e : Engine)
    (h2 : ∀ l ∈ possible_values e, ∀ x ∈ l, x.length = 2) :
    possibilities e = listProduct (possible_values e) ∧
    (possibilities e).length = ((possible_values e).map List.length).prod ∧
    ∀ t ∈ possibilities e, t.length = 4 ∧ t.flatten.length = 8 := by
  refine ⟨rfl, length_listProduct _, ?_⟩
  intro t ht
  have hf := mem_listProduct ht
  have hlen4 : t.length = 4 := List.Forall₂.length_eq hf
  refine ⟨hlen4, ?_⟩
  have hall : ∀ x ∈ t, x.length = 2 := by
    intro x hx
    obtain ⟨l, hl, hxl⟩ := forall₂_mem_exists hf x hx
    exact h2 l hl x hxl
  rw [flatten_length_two t hall, hlen4]

theorem c4_witness :
    possibilities whitehatEngine = listProduct (possible_values whitehatEngine) ∧
    (possibilities whitehatEngine).length =
      ((possible_values whitehatEngine).map List.length).prod ∧
    ∀ t ∈ possibilities whitehatEngine, t.length = 4 ∧ t.flatten.length = 8 :=
  c4_cartesian_product whitehatEngine (by decide)

/-- C5: every iteration of the brute-force loop spawns the subprocess
`./whitehat_crypto400` with the joined candidate string as its single
argument and stderr merged into stdout, reads the combined output, and its
hit flag tests whether the substring `FLAG IS` occurs in that output
(solve.py lines 78-81). -/
theorem c5_subprocess_per_candidate (run : Str → Str) (gs : List (List Str)) :
    ∀ it ∈ (bruteForce run gs).1,
      it.spawned = ⟨targetProgram, [it.guess.flatten], true⟩ ∧
      it.output = run it.guess.flatten ∧
      it.hit = pyIn flagMarker it.output ∧
      it.guess ∈ gs := by
  intro it hmem
  obtain ⟨g, hg, rfl⟩ := bf_mem_trace run gs it hmem
  exact ⟨rfl, rfl, rfl, hg⟩

theorem c5_witness :
    (runIter missEngine.run [['a', 'b']]).spawned =
      ⟨targetProgram, [(runIter missEngine.run [['a', 'b']]).guess.flatten], true⟩ ∧
    (runIter missEngine.run [['a', 'b']]).output =
      missEngine.run (runIter missEngine.run [['a', 'b']]).guess.flatten ∧
    (runIter missEngine.run [['a', 'b']]).hit =
      pyIn flagMarker (runIter missEngine.run [['a', 'b']]).output ∧
    (runIter missEngine.run [['a', 'b']]).guess ∈ [[['a', 'b']]] :=
  c5_subprocess_per_candidate missEngine.run [[['a', 'b']]] _ (by decide)

/-- C6: path exploration proceeds as four successive find steps toward
`0x4016A3`, `0x4016B7`, `0x4017CF`, `0x401825` in that order (solve.py
lines 53-56), and in each step every path that reaches one of that step's
avoid addresses is discarded: no surviving path, found or still active,
ever visited an avoid address. -/
theorem c6_exploration_order_and_avoid :
    explorationPlan.map ExploreStepSpec.find = [0x4016A3, 0x4016B7, 0x4017CF, 0x401825] ∧
    ∀ step ∈ explorationPlan, ∀ (next : Nat → List Nat) (fuel : Nat) (active : List Path),
      (∀ p ∈ active, ∀ a ∈ pathVisited p, decide (a ∈ step.avoid) = false) →
      ∀ q, (q ∈ (explore next step.find step.avoid fuel active).1 ∨
            q ∈ (explore next step.find step.avoid fuel active).2) →
      ∀ a ∈ pathVisited q, decide (a ∈ step.avoid) = false := by
  refine ⟨rfl, ?_⟩
  intro step _ next fuel active h q hq a ha
  obtain ⟨h1, h2⟩ := explore_avoid_free next step.find step.avoid fuel active h
  rcases hq with hq | hq
  · exact h1 q hq a ha
  · exact h2 q hq a ha

theorem c6_witness :
    decide ((0x4016B7 : Nat) ∈ [0x4017D6, 0x401699, 0x40167D]) = false :=
  c6_exploration_order_and_avoid.2 ⟨0x4016B7, [0x4017D6, 0x401699, 0x40167D]⟩
    (by decide) (fun _ => [0x4016B7]) 2 [(0x400000, [])] (by decide)
    (0x4016B7, [0x400000]) (Or.inl (by decide)) 0x4016B7 (by decide)

/-- C7 (counterexample): on the modelled fixed binary, `main` succeeds and
returns `growfish_nytEaTBU`, which does not contain the success marker
`FLAG IS` and is not the binary's output line (the whole combined output
`FLAG IS growfish_nytEaTBU`): the result is a token of that line, not the
line itself. -/
theorem c7_counterexample :
    (main whitehatEngine).2 = Except.ok (some "growfish_nytEaTBU".data) ∧
    pyIn flagMarker "growfish_nytEaTBU".data = false ∧
    "growfish_nytEaTBU".data ≠ whitehatEngine.run "growfish".data :=
  ⟨rfl, by decide, by decide⟩

/-- C7 (amended): when `main` succeeds, its result is a whitespace-delimited
token of the successful candidate's combined output (the flag token, which
need not contain the marker itself); when no candidate's output contains
`FLAG IS`, `main` produces no result (returns `None`). -/
theorem c7_result_shape (run : Str → Str) (gs : List (List Str)) :
    ((∀ g ∈ gs, pyIn flagMarker (run g.flatten) = false) →
      (bruteForce run gs).2 = Except.ok none) ∧
    (∀ t, (bruteForce run gs).2 = Except.ok (some t) →
      ∃ g ∈ gs, pyIn flagMarker (run g.flatten) = true ∧ t ∈ pySplit (run g.flatten)) := by
  constructor
  · intro h
    rw [bf_all_miss run gs h]
  · intro t h
    obtain ⟨it, hmem, hhit, hfind⟩ :=
      bf_success run gs (bruteForce run gs).1 t (Prod.ext rfl h)
    obtain ⟨g, hg, rfl⟩ := bf_mem_trace run gs it hmem
    exact ⟨g, hg, hhit, List.mem_of_find?_eq_some hfind⟩

theorem c7_witness :
    (bruteForce missEngine.run (possibilities missEngine)).2 = Except.ok none ∧
    ∃ g ∈ possibilities whitehatEngine,
      pyIn flagMarker (whitehatEngine.run g.flatten) = true ∧
      "growfish_nytEaTBU".data ∈ pySplit (whitehatEngine.run g.flatten) :=
  ⟨(c7_result_shape missEngine.run (possibilities missEngine)).1 (by decide),
   (c7_result_shape whitehatEngine.run (possibilities whitehatEngine)).2 _ rfl⟩

/-- C8: the brute-force loop spawns exactly one subprocess per candidate
tried (the trace lists the tried candidates, in order, as a front segment
of the possibilities), tries at most `65536 ^ 4` candidates, and
terminates early: every iteration before the last misses, and whenever the
loop returns a result some iteration hit the marker, namely the final one. -/
theorem c8_resources (e : Engine) :
    (main e).1.map Iteration.guess = (possibilities e).take (main e).1.length ∧
    (main e).1.length ≤ (possibilities e).length ∧
    (possibilities e).length ≤ 65536 ^ 4 ∧
    (∀ it ∈ (main e).1.dropLast, it.hit = false) ∧
    ((main e).2 ≠ Except.ok none →
      ∃ it, (main e).1.getLast? = some it ∧ it.hit = true) := by
  refine ⟨bf_guesses e.run (possibilities e), ?_, ?_,
    bf_dropLast_no_hit e.run (possibilities e), bf_last_hit e.run (possibilities e)⟩
  · have h := congrArg List.length (bf_guesses e.run (possibilities e))
    simp only [List.length_map, List.length_take] at h
    have h' : (main e).1.length = min (main e).1.length (possibilities e).length := h
    omega
  · have hle : ∀ x ∈ (possible_values e).map List.length, x ≤ 65536 := by
      intro x hx
      obtain ⟨l, hl, rfl⟩ := List.mem_map.mp hx
      have hrange : List.range' 0 4 2 = [0, 2, 4, 6] := rfl
      simp only [possible_values, hrange, List.mem_map] at hl
      obtain ⟨i, _, rfl⟩ := hl
      simp [any_n_str, List.length_take]
    have h := List.prod_le_pow_card ((possible_values e).map List.length) 65536 hle
    have hlen : ((possible_values e).map List.length).length = 4 := rfl
    rw [hlen] at h
    calc (possibilities e).length
        = ((possible_values e).map List.length).prod := length_listProduct _
      _ ≤ 65536 ^ 4 := h

theorem c8_witness :
    (runIter missEngine.run [['a', 'a'], ['a', 'a'], ['a', 'a'], ['a', 'a']]).hit = false ∧
    ∃ it, (main whitehatEngine).1.getLast? = some it ∧ it.hit = true :=
  ⟨(c8_resources missEngine).2.2.2.1 _ (by decide),
   (c8_resources whitehatEngine).2.2.2.2
     (fun h => Option.noConfusion (Except.ok.inj h))⟩

/-- C10: whenever `main` returns a string, that string is a
whitespace-delimited token of the successful subprocess's combined output
(it contains no whitespace), it is the first such token containing the
winning guess, and the winning guess occurs in it as a substring
(solve.py lines 80-81). -/
theorem c10_returned_token (run : Str → Str) (gs : List (List Str))
    (tr : List Iteration) (t : Str)
    (h : bruteForce run gs = (tr, Except.ok (some t))) :
    ∃ it ∈ tr, it.hit = true ∧
      (pySplit it.output).find? (fun s => pyIn it.guess.flatten s) = some t ∧
      t ∈ pySplit it.output ∧
      (∀ c ∈ t, pyIsSpace c = false) ∧
      it.guess.flatten <:+: t := by
  obtain ⟨it, hmem, hhit, hfind⟩ := bf_success run gs tr t h
  refine ⟨it, hmem, hhit, hfind, List.mem_of_find?_eq_some hfind, ?_, ?_⟩
  · exact pySplit_no_space it.output t (List.mem_of_find?_eq_some hfind)
  · have hp := List.find?_some hfind
    simpa [pyIn] using hp

theorem c10_witness :
    ∃ it ∈ (main whitehatEngine).1, it.hit = true ∧
      (pySplit it.output).find? (fun s => pyIn it.guess.flatten s) =
        some "growfish_nytEaTBU".data ∧
      "growfish_nytEaTBU".data ∈ pySplit it.output ∧
      (∀ c ∈ "growfish_nytEaTBU".data, pyIsSpace c = false) ∧
      it.guess.flatten <:+: "growfish_nytEaTBU".data :=
  c10_returned_token whitehatEngine.run (possibilities whitehatEngine)
    (main whitehatEngine).1 "growfish_nytEaTBU".data rfl

end Whitehat400
